import Mathlib

/-!
Verification of the reduction kernel of `webnn-baseline` (`src/reduce.js`).

The reduction engine itself (`reduce` and the named reducers) is transcribed
from `src/reduce.js`.  Its collaborators (`lib/tensor.js`, `squeeze.js`,
`lib/validate-input.js`, the elementwise `pow` of `binary.js`) are not part of
the sources at hand; they are modelled from the specification, each with a
doc comment saying so.

Numbers are embedded as rationals: the claims under study are structural
(orders of folds, shapes, mixed-radix index arithmetic, exact algebraic
relations between reducers) and none depends on floating-point rounding.
JavaScript mutation of the caller-visible arrays (the engine writes its output
tensor through `setValueByIndex` and sorts the caller's `axes` array in
place) is embedded by threading an explicit `EngineState` through the loop;
the observable post-call contents of the input tensor and of the `axes` array
are returned alongside the result.
-/

namespace Webnn

/-- Modelled from the spec: the Array/Tensor collaborator (`lib/tensor.js`,
not under the given sources).  A dense numeric buffer: a shape (ordered
sequence of dimension sizes) together with the flat row-major data. -/
structure Tensor where
  shape : List Nat
  data : List ℚ
deriving DecidableEq, Repr

/-- Modelled from the spec: element count of a shape is the product of its
entries (`sizeOfShape` of `lib/tensor.js`); the empty shape has size 1. -/
def sizeOfShape (shape : List Nat) : Nat := shape.prod

/-- Rank of a tensor: the length of its shape. -/
def Tensor.rank (t : Tensor) : Nat := t.shape.length

/-- The tensor invariant of the spec: the data holds exactly
`sizeOfShape shape` elements and every dimension size is positive. -/
def Tensor.WF (t : Tensor) : Prop :=
  t.data.length = sizeOfShape t.shape ∧ ∀ d ∈ t.shape, 0 < d

/-- Modelled from the spec: `locationFromIndex` of the Array/Tensor
collaborator; converts a flat index to a coordinate location for a row-major
(last axis fastest) layout, axis `i` receiving
`(index / stride i) % shape i` with `stride i` the product of the later
extents. -/
def locationFromIndex : List Nat → Nat → List Nat
  | [], _ => []
  | d :: ds, index => (index / sizeOfShape ds) % d :: locationFromIndex ds (index % sizeOfShape ds)

/-- Modelled from the spec: the inverse conversion, from a coordinate
location to the row-major flat index. -/
def indexFromLocation : List Nat → List Nat → Nat
  | _ :: ds, c :: cs => c * sizeOfShape ds + indexFromLocation ds cs
  | _, _ => 0

/-- Modelled from the spec: `getValueByLocation` of the Array/Tensor
collaborator reads the element at the row-major flat index of the location. -/
def Tensor.getValueByLocation (t : Tensor) (loc : List Nat) : ℚ :=
  t.data.getD (indexFromLocation t.shape loc) 0

/-- Modelled from the spec: the Squeeze collaborator (`squeeze.js`, not under
the given sources) removes all size-1 axes; the row-major data is unchanged
by removing size-1 axes. -/
def squeeze (t : Tensor) : Tensor :=
  ⟨t.shape.filter (fun d => d ≠ 1), t.data⟩

/-- Modelled from the spec: the validation collaborator
`validateReduceParams` (`lib/validate-input.js`, not under the given
sources).  Per the spec's error taxonomy it fails with a ShapeError exactly
when an axis index lies outside `[0, rank)` or the axis set contains a
duplicate. -/
def validateReduceParams (rank : Nat) (axes : List Nat) : Bool :=
  axes.all (fun a => a < rank) && decide axes.Nodup

/-- JavaScript `Array.prototype.reduce` with no initial value, as used at
`valuesToReduce.reduce(reduceFunc)`: the head seeds the accumulator and the
callback receives `(previousValue, currentValue, currentIndex, array)`; the
reducers of this module consult the array argument only through its length,
so the embedding passes the length.  (On an empty array JavaScript throws;
the engine never folds an empty array since every dimension size is
positive.) -/
def jsReduceAux (f : ℚ → ℚ → Nat → Nat → ℚ) (n : Nat) : ℚ → Nat → List ℚ → ℚ
  | acc, _, [] => acc
  | acc, k, y :: ys => jsReduceAux f n (f acc y k n) (k + 1) ys

/-- JavaScript `valuesToReduce.reduce(reduceFunc)` (no initial value). -/
def jsReduce (f : ℚ → ℚ → Nat → Nat → ℚ) (l : List ℚ) : ℚ :=
  match l with
  | [] => 0
  | x :: xs => jsReduceAux f l.length x 1 xs

/-- The stride table of `reduce.js` lines 30–34: `reduceStrides[last] = 1`
and `reduceStrides[i] = reduceStrides[i+1] * reduceDims[i+1]`, i.e. entry `i`
is the product of the extents after position `i`. -/
def computeStrides : List Nat → List Nat
  | [] => []
  | _ :: ds => sizeOfShape ds :: computeStrides ds

/-- The inner decomposition loop of `reduce.js` lines 44–48: walking the
sorted axes with their strides, overwrite `loc` at each reduced axis with
`remaining / stride` and continue with `remaining % stride` (the source
subtracts `location[axis] * stride`, which is the same remainder). -/
def decomposeLoop : List Nat → List Nat → List Nat → Nat → List Nat
  | a :: as', s :: ss, loc, r => decomposeLoop as' ss (loc.set a (r / s)) (r % s)
  | _, _, loc, _ => loc

/-- The gathering of `valuesToReduce` (`reduce.js` lines 38–50): for each
reduce-index `r` in ascending order, start from the output's own location and
overwrite the reduced axes by the decomposition of `r`, then read the input
there. -/
def gatherValues (input : Tensor) (outputShape axesL strides : List Nat)
    (reduceElements outputIndex : Nat) : List ℚ :=
  (List.range reduceElements).map fun r =>
    input.getValueByLocation (decomposeLoop axesL strides (locationFromIndex outputShape outputIndex) r)

/-- The mutable store visible to the engine loop: the input tensor's shape
and data, the caller's `axes` array (aliased and sorted in place by the
engine), and the output tensor's data. -/
structure EngineState where
  inputShape : List Nat
  inputData : List ℚ
  axesArr : List Nat
  outputData : List ℚ
deriving DecidableEq, Repr

/-- One iteration of the output loop of `reduce.js` lines 37–53: gather the
values to reduce (reading the input and the sorted axes from the store), fold
them with the reducer, and store the result at the output flat index. -/
def engineStep (f : ℚ → ℚ → Nat → Nat → ℚ) (outputShape strides : List Nat)
    (reduceElements : Nat) (st : EngineState) (outputIndex : Nat) : EngineState :=
  let values := gatherValues ⟨st.inputShape, st.inputData⟩ outputShape st.axesArr strides
    reduceElements outputIndex
  { st with outputData := st.outputData.set outputIndex (jsReduce f values) }

/-- `reduce.js` line 17: an absent `axes` option defaults to all axes
`0 .. rank-1`. -/
def defaultAxes (input : Tensor) (axes : Option (List Nat)) : List Nat :=
  axes.getD (List.range input.rank)

/-- `reduce.js` lines 19–22: the output shape is a copy of the input shape
with the entry at each reduced axis set to 1. -/
def outputShapeOf (shape : List Nat) (inpAxes : List Nat) : List Nat :=
  inpAxes.foldl (fun s a => s.set a 1) shape

/-- `reduce.js` line 28: the extent of each reduced axis, in sorted-axis
order. -/
def reduceDimsOf (shape : List Nat) (sortedAxes : List Nat) : List Nat :=
  sortedAxes.map fun a => shape.getD a 0

/-- `reduce` of `reduce.js` lines 16–59, with the observable post-call state
made explicit: the result is returned together with the contents of the input
tensor and of the caller's `axes` array as observable after the call (the
source sorts the caller's array in place at line 27, after validation).
`axes = none` models an absent `axes` option, defaulted at line 17 to all
axes `0 .. rank-1`. -/
def reduceSt (input : Tensor) (f : ℚ → ℚ → Nat → Nat → ℚ) (keepDimensions : Bool)
    (axes : Option (List Nat)) : Except String Tensor × Tensor × Option (List Nat) :=
  let inpAxes := defaultAxes input axes
  let outputShape := outputShapeOf input.shape inpAxes
  if validateReduceParams input.rank inpAxes then
    let sortedAxes := inpAxes.insertionSort (· ≤ ·)
    let reduceDims := reduceDimsOf input.shape sortedAxes
    let reduceElements := sizeOfShape reduceDims
    let reduceStrides := computeStrides reduceDims
    let st0 : EngineState :=
      ⟨input.shape, input.data, sortedAxes, List.replicate (sizeOfShape outputShape) 0⟩
    let stF := (List.range (sizeOfShape outputShape)).foldl
      (engineStep f outputShape reduceStrides reduceElements) st0
    let output0 : Tensor := ⟨outputShape, stF.outputData⟩
    (Except.ok (if keepDimensions then output0 else squeeze output0),
      ⟨stF.inputShape, stF.inputData⟩, axes.map fun _ => stF.axesArr)
  else
    (Except.error "ShapeError", input, axes)

/-- `reduce` of `reduce.js`: the returned tensor (or validation error). -/
def reduce (input : Tensor) (f : ℚ → ℚ → Nat → Nat → ℚ) (keepDimensions : Bool)
    (axes : Option (List Nat)) : Except String Tensor :=
  (reduceSt input f keepDimensions axes).1

/-- The max reducer of `reduce.js` line 62. -/
def maxReducer (previousValue currentValue : ℚ) (_ _ : Nat) : ℚ :=
  max previousValue currentValue

/-- The mean reducer of `reduce.js` lines 75–81: running sum, dividing by the
array length on the last folded element. -/
def meanReducer (previousValue currentValue : ℚ) (currentIndex arrayLength : Nat) : ℚ :=
  if currentIndex = arrayLength - 1 then (previousValue + currentValue) / arrayLength
  else previousValue + currentValue

/-- The sum reducer (the lambda of `reduce.js` lines 122–123). -/
def sumReducer (previousValue currentValue : ℚ) (_ _ : Nat) : ℚ :=
  previousValue + currentValue

/-- `reduceMax` of `reduce.js`. -/
def reduceMax (input : Tensor) (keepDimensions : Bool) (axes : Option (List Nat)) :
    Except String Tensor :=
  reduce input maxReducer keepDimensions axes

/-- `reduceMean` of `reduce.js`. -/
def reduceMean (input : Tensor) (keepDimensions : Bool) (axes : Option (List Nat)) :
    Except String Tensor :=
  reduce input meanReducer keepDimensions axes

/-- `reduceSum` of `reduce.js`. -/
def reduceSum (input : Tensor) (keepDimensions : Bool) (axes : Option (List Nat)) :
    Except String Tensor :=
  reduce input sumReducer keepDimensions axes

/-- Integer square root by downward search: the largest `k` below the fuel
bound with `k * k ≤ n` (structural recursion so that it evaluates in the
kernel). -/
def natSqrtFrom (n : Nat) : Nat → Nat
  | 0 => 0
  | k + 1 => if (k + 1) * (k + 1) ≤ n then k + 1 else natSqrtFrom n k

/-- Integer square root: the largest `k` with `k * k ≤ n`. -/
def natSqrt (n : Nat) : Nat := natSqrtFrom n n

/-- Modelled from the spec: exact square root on the rationals, the meaning
of raising to the 0.5 power for the perfect squares this development
evaluates (the claims about `reduceL2` are structural and pin concrete values
only at perfect squares). -/
def ratSqrt (x : ℚ) : ℚ := (natSqrt x.num.toNat : ℚ) / (natSqrt x.den : ℚ)

/-- Modelled from the spec: `Math.pow`, restricted to the two exponents this
module uses — squaring (exponent 2) and square root (exponent 0.5). -/
def jsPow (x p : ℚ) : ℚ :=
  if p = 2 then x * x else if p = 1 / 2 then ratSqrt x else 0

/-- Modelled from the spec: the elementwise `pow` collaborator
(`binary.js`, not under the given sources) with a scalar second operand:
applied elementwise, same shape preserved. -/
def pow (t : Tensor) (p : ℚ) : Tensor :=
  ⟨t.shape, t.data.map fun x => jsPow x p⟩

/-- `reduceSumSquare` of `reduce.js`: `reduceSum` of the elementwise square
(`pow(input, new Scalar(2))`). -/
def reduceSumSquare (input : Tensor) (keepDimensions : Bool) (axes : Option (List Nat)) :
    Except String Tensor :=
  reduceSum (pow input 2) keepDimensions axes

/-- `reduceL2` of `reduce.js` lines 152–161: the intermediate
`reduceSumSquare`; a rank-0 intermediate takes a direct scalar
`Math.pow(·, 0.5)` into a fresh rank-0 tensor, otherwise the elementwise
`pow(·, 0.5)`. -/
def reduceL2 (input : Tensor) (keepDimensions : Bool) (axes : Option (List Nat)) :
    Except String Tensor :=
  (reduceSumSquare input keepDimensions axes).map fun intermediateResult =>
    if intermediateResult.rank = 0 then
      ⟨[], [jsPow (intermediateResult.data.getD 0 0) (1 / 2)]⟩
    else
      pow intermediateResult (1 / 2)

/-! ### The engine loop as a pure function -/

lemma foldl_engineStep_frame (f : ℚ → ℚ → Nat → Nat → ℚ) (os ss : List Nat) (re : Nat) :
    ∀ (idxs : List Nat) (st : EngineState),
      (idxs.foldl (engineStep f os ss re) st).inputShape = st.inputShape ∧
      (idxs.foldl (engineStep f os ss re) st).inputData = st.inputData ∧
      (idxs.foldl (engineStep f os ss re) st).axesArr = st.axesArr := by
  intro idxs
  induction idxs with
  | nil => intro st; exact ⟨rfl, rfl, rfl⟩
  | cons i is ih => intro st; simpa [engineStep] using ih (engineStep f os ss re st i)

lemma foldl_engineStep_outputData (f : ℚ → ℚ → Nat → Nat → ℚ) (os ss : List Nat) (re : Nat)
    (IS : List Nat) (ID : List ℚ) (AX : List Nat) :
    ∀ (idxs : List Nat) (st : EngineState),
      st.inputShape = IS → st.inputData = ID → st.axesArr = AX →
      (idxs.foldl (engineStep f os ss re) st).outputData =
        idxs.foldl (fun l i => l.set i (jsReduce f (gatherValues ⟨IS, ID⟩ os AX ss re i)))
          st.outputData := by
  intro idxs
  induction idxs with
  | nil => intro st _ _ _; rfl
  | cons i is ih =>
    intro st h1 h2 h3
    have hstep : engineStep f os ss re st i =
        { st with outputData :=
            st.outputData.set i (jsReduce f (gatherValues ⟨IS, ID⟩ os AX ss re i)) } := by
      simp [engineStep, h1, h2, h3]
    simp only [List.foldl_cons, hstep]
    exact ih _ h1 h2 h3

lemma length_foldl_set {α : Type} (V : Nat → α) (idxs : List Nat) (l : List α) :
    (idxs.foldl (fun acc i => acc.set i (V i)) l).length = l.length := by
  induction idxs generalizing l with
  | nil => rfl
  | cons i is ih => simpa using ih (l.set i (V i))

lemma getD_foldl_set {α : Type} (V : Nat → α) (d : α) (idxs : List Nat) (l : List α)
    (j : Nat) (hj : j < l.length) :
    (idxs.foldl (fun acc i => acc.set i (V i)) l).getD j d =
      if j ∈ idxs then V j else l.getD j d := by
  induction idxs generalizing l with
  | nil => simp
  | cons i is ih =>
    have hj' : j < (l.set i (V i)).length := by simpa using hj
    have hset : (l.set i (V i)).getD j d = if i = j then V i else l.getD j d := by
      rw [List.getD_eq_getElem _ _ hj', List.getElem_set]
      split
      · rfl
      · rw [List.getD_eq_getElem _ _ hj]
    rw [List.foldl_cons, ih (l.set i (V i)) hj', hset]
    by_cases hmem : j ∈ is
    · simp [hmem]
    · by_cases hij : i = j
      · subst hij; simp [hmem]
      · simp [hmem, hij, List.mem_cons, Ne.symm hij]

lemma foldl_set_range_eq_map {α : Type} (V : Nat → α) (n : Nat) (l : List α)
    (hl : l.length = n) :
    (List.range n).foldl (fun acc i => acc.set i (V i)) l = (List.range n).map V := by
  apply List.ext_getElem (by simp [length_foldl_set, hl])
  intro j h1 h2
  have hj : j < n := by simpa [length_foldl_set, hl] using h1
  have hjl : j < l.length := by omega
  rw [← List.getD_eq_getElem _ (V j) h1, getD_foldl_set V (V j) _ l j hjl]
  simp [List.mem_range, hj, List.getElem_range]

/-- The value the engine computes and stores at output flat index `oi`
(`reduce.js` lines 38–52): the left-to-right JavaScript fold of the reducer
over the gathered values. -/
def reduceData (input : Tensor) (f : ℚ → ℚ → Nat → Nat → ℚ)
    (outputShape sortedAxes : List Nat) : List ℚ :=
  (List.range (sizeOfShape outputShape)).map fun oi =>
    jsReduce f (gatherValues input outputShape sortedAxes
      (computeStrides (reduceDimsOf input.shape sortedAxes))
      (sizeOfShape (reduceDimsOf input.shape sortedAxes)) oi)

/-- The engine run as a pure function of the resolved axis list (proved equal
to the stateful transcription below). -/
def reducePure (input : Tensor) (f : ℚ → ℚ → Nat → Nat → ℚ) (keepDimensions : Bool)
    (inpAxes : List Nat) : Tensor :=
  let outputShape := outputShapeOf input.shape inpAxes
  let sortedAxes := inpAxes.insertionSort (· ≤ ·)
  let output0 : Tensor := ⟨outputShape, reduceData input f outputShape sortedAxes⟩
  if keepDimensions then output0 else squeeze output0

lemma reduceSt_eq_of_valid (input : Tensor) (f : ℚ → ℚ → Nat → Nat → ℚ)
    (keepDimensions : Bool) (axes : Option (List Nat))
    (hv : validateReduceParams input.rank (defaultAxes input axes) = true) :
    reduceSt input f keepDimensions axes =
      (Except.ok (reducePure input f keepDimensions (defaultAxes input axes)), input,
        axes.map fun _ => (defaultAxes input axes).insertionSort (· ≤ ·)) := by
  obtain ⟨sh, da⟩ := input
  unfold reduceSt
  simp only [hv, if_true]
  set inpAxes := defaultAxes ⟨sh, da⟩ axes with hA
  set os := outputShapeOf sh inpAxes with hos
  set sortedAxes := inpAxes.insertionSort (· ≤ ·) with hsa
  set dims := reduceDimsOf sh sortedAxes with hdims
  set st0 : EngineState := ⟨sh, da, sortedAxes, List.replicate (sizeOfShape os) 0⟩ with hst0
  have hframe := foldl_engineStep_frame f os (computeStrides dims) (sizeOfShape dims)
    (List.range (sizeOfShape os)) st0
  have hout := foldl_engineStep_outputData f os (computeStrides dims) (sizeOfShape dims)
    sh da sortedAxes (List.range (sizeOfShape os)) st0 rfl rfl rfl
  rw [foldl_set_range_eq_map _ _ _ (by simp)] at hout
  refine Prod.ext ?_ (Prod.ext ?_ ?_)
  · show Except.ok _ = Except.ok _
    congr 1
    unfold reducePure
    simp only [← hA, ← hos, ← hsa]
    congr 1 <;> · exact congrArg _ (by rw [hout]; rfl)
  · show (⟨_, _⟩ : Tensor) = ⟨sh, da⟩
    rw [hframe.1, hframe.2.1]
  · show axes.map _ = axes.map _
    exact congrArg (fun g => Option.map g axes) (funext fun _ => hframe.2.2)

lemma reduceSt_eq_of_invalid (input : Tensor) (f : ℚ → ℚ → Nat → Nat → ℚ)
    (keepDimensions : Bool) (axes : Option (List Nat))
    (hv : validateReduceParams input.rank (defaultAxes input axes) = false) :
    reduceSt input f keepDimensions axes = (Except.error "ShapeError", input, axes) := by
  unfold reduceSt
  simp [hv]

lemma reduce_eq_of_valid (input : Tensor) (f : ℚ → ℚ → Nat → Nat → ℚ)
    (keepDimensions : Bool) (axes : Option (List Nat))
    (hv : validateReduceParams input.rank (defaultAxes input axes) = true) :
    reduce input f keepDimensions axes =
      Except.ok (reducePure input f keepDimensions (defaultAxes input axes)) := by
  unfold reduce
  rw [reduceSt_eq_of_valid input f keepDimensions axes hv]

/-! ### The JavaScript folds of the named reducers -/

lemma jsReduceAux_sumReducer (n : Nat) :
    ∀ (ys : List ℚ) (acc : ℚ) (k : Nat), jsReduceAux sumReducer n acc k ys = acc + ys.sum := by
  intro ys
  induction ys with
  | nil => intro acc k; simp [jsReduceAux]
  | cons y ys ih => intro acc k; simp [jsReduceAux, sumReducer, ih, add_assoc]

lemma jsReduce_sumReducer (l : List ℚ) : jsReduce sumReducer l = l.sum := by
  cases l with
  | nil => simp [jsReduce]
  | cons x xs => simp [jsReduce, jsReduceAux_sumReducer]

lemma jsReduceAux_meanReducer (n : Nat) :
    ∀ (ys : List ℚ) (acc : ℚ) (k : Nat), ys ≠ [] → k + ys.length = n →
      jsReduceAux meanReducer n acc k ys = (acc + ys.sum) / (n : ℚ) := by
  intro ys
  induction ys with
  | nil => intro acc k h _; exact absurd rfl h
  | cons y ys ih =>
    intro acc k _ hlen
    cases ys with
    | nil =>
      have hk : k = n - 1 := by simp at hlen; omega
      simp [jsReduceAux, meanReducer, hk]
    | cons y2 ys2 =>
      have hk : ¬ k = n - 1 := by simp at hlen; omega
      have hstep : jsReduceAux meanReducer n acc k (y :: y2 :: ys2) =
          jsReduceAux meanReducer n (acc + y) (k + 1) (y2 :: ys2) := by
        show jsReduceAux meanReducer n (meanReducer acc y k n) (k + 1) (y2 :: ys2) = _
        rw [show meanReducer acc y k n = acc + y from by simp [meanReducer, hk]]
      rw [hstep, ih (acc + y) (k + 1) (by simp) (by simp at hlen ⊢; omega)]
      simp [List.sum_cons, add_assoc]

lemma jsReduce_meanReducer (l : List ℚ) (hl : l ≠ []) :
    jsReduce meanReducer l = jsReduce sumReducer l / (l.length : ℚ) := by
  cases l with
  | nil => exact absurd rfl hl
  | cons x xs =>
    cases xs with
    | nil => simp [jsReduce, jsReduceAux]
    | cons y ys =>
      rw [jsReduce, jsReduce_sumReducer]
      rw [jsReduceAux_meanReducer _ (y :: ys) x 1 (by simp)
        (by simp only [List.length_cons]; omega)]
      simp [List.sum_cons, add_assoc]

/-! ### Validation -/

lemma validateReduceParams_iff (rank : Nat) (axes : List Nat) :
    validateReduceParams rank axes = true ↔ (∀ a ∈ axes, a < rank) ∧ axes.Nodup := by
  simp [validateReduceParams, List.all_eq_true]

lemma validateReduceParams_range (rank : Nat) :
    validateReduceParams rank (List.range rank) = true := by
  rw [validateReduceParams_iff]
  exact ⟨fun a ha => List.mem_range.mp ha, List.nodup_range rank⟩

/-! ### Mixed-radix index arithmetic -/

lemma indexFromLocation_locationFromIndex :
    ∀ (shape : List Nat) (r : Nat), r < sizeOfShape shape →
      indexFromLocation shape (locationFromIndex shape r) = r := by
  intro shape
  induction shape with
  | nil =>
    intro r hr
    simp [sizeOfShape] at hr
    simp [locationFromIndex, indexFromLocation, hr]
  | cons d ds ih =>
    intro r hr
    have hs : sizeOfShape (d :: ds) = d * sizeOfShape ds := by simp [sizeOfShape]
    rw [hs] at hr
    rcases Nat.eq_zero_or_pos (sizeOfShape ds) with h0 | hpos
    · rw [h0, Nat.mul_zero] at hr; omega
    · have hmod : r % sizeOfShape ds < sizeOfShape ds := Nat.mod_lt _ hpos
      have hdiv : r / sizeOfShape ds < d := (Nat.div_lt_iff_lt_mul hpos).mpr hr
      simp only [locationFromIndex, indexFromLocation]
      rw [Nat.mod_eq_of_lt hdiv, ih _ hmod]
      have hdm := Nat.div_add_mod r (sizeOfShape ds)
      rw [Nat.mul_comm] at hdm
      exact hdm

lemma mod_div_mod_eq (r s si di : Nat) (h : si * di ∣ s) :
    r % s / si % di = r / si % di := by
  rcases h with ⟨k, hk⟩
  subst hk
  rcases Nat.eq_zero_or_pos si with hsi | hsi
  · subst hsi; simp
  · have hq := Nat.div_add_mod r (si * di * k)
    set q := r / (si * di * k) with hqdef
    set t := r % (si * di * k) with htdef
    have hr : r = t + si * (di * k * q) := by rw [← hq]; ring
    rw [hr, Nat.add_mul_div_left _ _ hsi]
    have hcomm : di * k * q = k * q * di := by ring
    rw [hcomm, Nat.add_mul_mod_self_right]

lemma stride_mul_dvd :
    ∀ (dims : List Nat), ∀ p ∈ dims.zip (computeStrides dims), p.2 * p.1 ∣ sizeOfShape dims := by
  intro dims
  induction dims with
  | nil => intro p hp; simp at hp
  | cons d ds ih =>
    intro p hp
    simp only [computeStrides, List.zip_cons_cons, List.mem_cons] at hp
    rcases hp with hp | hp
    · subst hp
      exact dvd_of_eq (by simp [sizeOfShape, Nat.mul_comm])
    · exact (ih p hp).trans
        (by simp only [sizeOfShape, List.prod_cons]; exact dvd_mul_left _ _)

/-- The mixed-radix decomposition as the spec states it: coordinate
`(r / reduceStrides[i]) % reduceDims[i]` written at sorted reduced axis `i`,
overwriting the output's own location. -/
def specDecompose (sortedAxes dims strides : List Nat) (loc : List Nat) (r : Nat) : List Nat :=
  (sortedAxes.zip (dims.zip strides)).foldl (fun l p => l.set p.1 (r / p.2.2 % p.2.1)) loc

lemma specDecompose_mod (s : Nat) :
    ∀ (axesL dims strides loc : List Nat) (r : Nat),
      (∀ p ∈ dims.zip strides, p.2 * p.1 ∣ s) →
      specDecompose axesL dims strides loc (r % s) = specDecompose axesL dims strides loc r := by
  intro axesL
  induction axesL with
  | nil => intro dims strides loc r _; rfl
  | cons a as ih =>
    intro dims strides loc r h
    cases dims with
    | nil => rfl
    | cons d ds =>
      cases strides with
      | nil => rfl
      | cons si ss =>
        simp only [specDecompose, List.zip_cons_cons, List.foldl_cons]
        rw [mod_div_mod_eq r s si d (h (d, si) (by simp))]
        exact ih ds ss _ r fun p hp => h p (by simp [hp])

lemma decomposeLoop_eq_spec :
    ∀ (dims axesL loc : List Nat) (r : Nat), axesL.length = dims.length →
      r < sizeOfShape dims →
      decomposeLoop axesL (computeStrides dims) loc r =
        specDecompose axesL dims (computeStrides dims) loc r := by
  intro dims
  induction dims with
  | nil =>
    intro axesL loc r hlen _
    have hnil : axesL = [] := List.eq_nil_of_length_eq_zero hlen
    subst hnil
    rfl
  | cons d ds ih =>
    intro axesL loc r hlen hr
    cases axesL with
    | nil => simp at hlen
    | cons a as =>
      have hs : sizeOfShape (d :: ds) = d * sizeOfShape ds := by simp [sizeOfShape]
      rw [hs] at hr
      rcases Nat.eq_zero_or_pos (sizeOfShape ds) with h0 | hpos
      · rw [h0, Nat.mul_zero] at hr; omega
      · have hdiv : r / sizeOfShape ds < d := (Nat.div_lt_iff_lt_mul hpos).mpr hr
        have hmod : r % sizeOfShape ds < sizeOfShape ds := Nat.mod_lt _ hpos
        simp only [computeStrides, decomposeLoop, specDecompose, List.zip_cons_cons,
          List.foldl_cons]
        rw [Nat.mod_eq_of_lt hdiv]
        have hrec := ih as (loc.set a (r / sizeOfShape ds)) (r % sizeOfShape ds)
          (by simpa using hlen) hmod
        rw [hrec]
        exact specDecompose_mod (sizeOfShape ds) as ds (computeStrides ds) _ r
          (stride_mul_dvd ds)

/-- The per-reduced-axis coordinates assigned by the mixed-radix
decomposition of reduce-index `r`, in sorted-axis order. -/
def specCoords (dims strides : List Nat) (r : Nat) : List Nat :=
  (dims.zip strides).map fun p => r / p.2 % p.1

lemma specCoords_reconstruct :
    ∀ (dims : List Nat) (r : Nat), r < sizeOfShape dims →
      ((specCoords dims (computeStrides dims) r).zip (computeStrides dims)).foldr
          (fun p acc => p.1 * p.2 + acc) 0 = r ∧
      ∀ p ∈ (specCoords dims (computeStrides dims) r).zip dims, p.1 < p.2 := by
  intro dims
  induction dims with
  | nil =>
    intro r hr
    simp [sizeOfShape] at hr
    simp [specCoords, hr]
  | cons d ds ih =>
    intro r hr
    have hs : sizeOfShape (d :: ds) = d * sizeOfShape ds := by simp [sizeOfShape]
    rw [hs] at hr
    rcases Nat.eq_zero_or_pos (sizeOfShape ds) with h0 | hpos
    · rw [h0, Nat.mul_zero] at hr; omega
    · have hdiv : r / sizeOfShape ds < d := (Nat.div_lt_iff_lt_mul hpos).mpr hr
      have hmod : r % sizeOfShape ds < sizeOfShape ds := Nat.mod_lt _ hpos
      obtain ⟨ihsum, ihlt⟩ := ih (r % sizeOfShape ds) hmod
      have hcongr : specCoords ds (computeStrides ds) (r % sizeOfShape ds) =
          specCoords ds (computeStrides ds) r := by
        unfold specCoords
        exact List.map_congr_left fun p hp =>
          mod_div_mod_eq r (sizeOfShape ds) p.2 p.1 (stride_mul_dvd ds p hp)
      rw [hcongr] at ihsum ihlt
      constructor
      · simp only [specCoords, computeStrides, List.zip_cons_cons, List.map_cons,
          List.foldr_cons]
        rw [Nat.mod_eq_of_lt hdiv]
        have : specCoords ds (computeStrides ds) r =
            (ds.zip (computeStrides ds)).map fun p => r / p.2 % p.1 := rfl
        rw [← this, ihsum]
        have hdm := Nat.div_add_mod r (sizeOfShape ds)
        rw [Nat.mul_comm] at hdm
        exact hdm
      · intro p hp
        simp only [specCoords, computeStrides, List.zip_cons_cons, List.map_cons,
          List.mem_cons] at hp
        rcases hp with hp | hp
        · subst hp
          simpa [Nat.mod_eq_of_lt hdiv] using hdiv
        · exact ihlt p hp

/-! ### Shapes -/

lemma length_outputShapeOf (shape axesL : List Nat) :
    (outputShapeOf shape axesL).length = shape.length := by
  unfold outputShapeOf
  induction axesL generalizing shape with
  | nil => rfl
  | cons a as ih => simpa using ih (shape.set a 1)

lemma getD_outputShapeOf (shape axesL : List Nat) (j : Nat) (hj : j < shape.length) :
    (outputShapeOf shape axesL).getD j 0 = if j ∈ axesL then 1 else shape.getD j 0 :=
  getD_foldl_set (fun _ => 1) 0 axesL shape j hj

/-- The output shape as the spec words it: the input shape with every entry
at a reduced axis set to 1. -/
def specKeepShape (shape : List Nat) (axesSet : List Nat) : List Nat :=
  (List.range shape.length).map fun i => if i ∈ axesSet then 1 else shape.getD i 0

lemma outputShapeOf_eq_spec (shape axesL : List Nat) :
    outputShapeOf shape axesL = specKeepShape shape axesL := by
  apply List.ext_getElem (by simp [specKeepShape, length_outputShapeOf])
  intro j h1 h2
  have hj : j < shape.length := by simpa [length_outputShapeOf] using h1
  rw [← List.getD_eq_getElem _ 0 h1, getD_outputShapeOf shape axesL j hj]
  simp [specKeepShape]

lemma map_getD_range {α : Type} (d : α) (l : List α) :
    (List.range l.length).map (fun i => l.getD i d) = l := by
  apply List.ext_getElem (by simp)
  intro j h1 h2
  simp only [List.getElem_map, List.getElem_range]
  exact List.getD_eq_getElem l d h2

lemma locationFromIndex_replicate_one (n : Nat) :
    locationFromIndex (List.replicate n 1) 0 = List.replicate n 0 := by
  induction n with
  | zero => rfl
  | succ m ih => simp [List.replicate_succ, locationFromIndex, ih]

lemma prod_filter_ne_one (l : List Nat) : (l.filter (fun d => d ≠ 1)).prod = l.prod := by
  induction l with
  | nil => rfl
  | cons d ds ih =>
    by_cases hd : d = 1
    · subst hd
      rw [List.filter_cons, if_neg (by simp), ih, List.prod_cons, one_mul]
    · rw [List.filter_cons, if_pos (by simp [hd]), List.prod_cons, ih, List.prod_cons]

lemma reduceData_length (input : Tensor) (f : ℚ → ℚ → Nat → Nat → ℚ)
    (os sa : List Nat) : (reduceData input f os sa).length = sizeOfShape os := by
  simp [reduceData]

lemma reducePure_data_length (input : Tensor) (f : ℚ → ℚ → Nat → Nat → ℚ)
    (keep : Bool) (inpAxes : List Nat) :
    (reducePure input f keep inpAxes).data.length =
      sizeOfShape (reducePure input f keep inpAxes).shape := by
  unfold reducePure
  cases keep with
  | false =>
    simp only [if_neg Bool.false_ne_true, squeeze]
    rw [reduceData_length]
    unfold sizeOfShape
    rw [prod_filter_ne_one]
  | true =>
    simp only [if_pos rfl]
    exact reduceData_length _ _ _ _

lemma getValue_locationFromIndex (t : Tensor) (i : Nat) (hi : i < sizeOfShape t.shape) :
    t.getValueByLocation (locationFromIndex t.shape i) = t.data.getD i 0 := by
  unfold Tensor.getValueByLocation
  rw [indexFromLocation_locationFromIndex t.shape i hi]

lemma insertionSort_range_perm (rank : Nat) (A : List Nat) (h : A.Perm (List.range rank)) :
    A.insertionSort (· ≤ ·) = List.range rank := by
  have hsr : List.Sorted (· ≤ ·) (List.range rank) :=
    (List.pairwise_lt_range rank).imp le_of_lt
  exact @List.eq_of_perm_of_sorted ℕ (· ≤ ·) _ _ _
    ((List.perm_insertionSort _ A).trans h) (List.sorted_insertionSort _ A) hsr

/-! ### Reducing over all axes enumerates the input row-major -/

lemma decomposeLoop_map_succ :
    ∀ (axesL strides : List Nat) (x : Nat) (loc : List Nat) (r : Nat),
      decomposeLoop (axesL.map Nat.succ) strides (x :: loc) r =
        x :: decomposeLoop axesL strides loc r := by
  intro axesL
  induction axesL with
  | nil => intro strides x loc r; rfl
  | cons a as ih =>
    intro strides x loc r
    cases strides with
    | nil => rfl
    | cons s ss =>
      simp only [List.map_cons, decomposeLoop, List.set_cons_succ]
      exact ih ss x (loc.set a (r / s)) (r % s)

lemma decomposeLoop_range (shape : List Nat) :
    ∀ (r : Nat), r < sizeOfShape shape →
      decomposeLoop (List.range shape.length) (computeStrides shape)
          (List.replicate shape.length 0) r =
        locationFromIndex shape r := by
  induction shape with
  | nil =>
    intro r hr
    simp [sizeOfShape] at hr
    simp [decomposeLoop, locationFromIndex, computeStrides]
  | cons d ds ih =>
    intro r hr
    have hs : sizeOfShape (d :: ds) = d * sizeOfShape ds := by simp [sizeOfShape]
    rw [hs] at hr
    rcases Nat.eq_zero_or_pos (sizeOfShape ds) with h0 | hpos
    · rw [h0, Nat.mul_zero] at hr; omega
    · have hdiv : r / sizeOfShape ds < d := (Nat.div_lt_iff_lt_mul hpos).mpr hr
      have hmod : r % sizeOfShape ds < sizeOfShape ds := Nat.mod_lt _ hpos
      rw [List.length_cons, List.range_succ_eq_map]
      have hfirst : decomposeLoop (0 :: (List.range ds.length).map Nat.succ)
          (computeStrides (d :: ds)) (List.replicate (ds.length + 1) 0) r =
          decomposeLoop ((List.range ds.length).map Nat.succ) (computeStrides ds)
            ((r / sizeOfShape ds) :: List.replicate ds.length 0) (r % sizeOfShape ds) := rfl
      rw [hfirst, decomposeLoop_map_succ, ih _ hmod]
      simp [locationFromIndex, Nat.mod_eq_of_lt hdiv]

lemma validateReduceParams_false_iff (rank : Nat) (axes : List Nat) :
    validateReduceParams rank axes = false ↔
      (∃ a ∈ axes, ¬ a < rank) ∨ ¬ axes.Nodup := by
  rw [← Bool.not_eq_true, validateReduceParams_iff, not_and_or]
  simp [not_forall]

/-! ### Claim theorems -/

/-- C9: after any call to `reduce`, the input tensor is unchanged — the
observable post-call contents of the input (shape and every element) equal
the pre-call input; the engine writes only into the freshly allocated output
buffer. -/
theorem reduce_input_unchanged (input : Tensor) (f : ℚ → ℚ → Nat → Nat → ℚ)
    (keepDimensions : Bool) (axes : Option (List Nat)) :
    (reduceSt input f keepDimensions axes).2.1 = input := by
  rcases hv : validateReduceParams input.rank (defaultAxes input axes) with _ | _
  · rw [reduceSt_eq_of_invalid input f keepDimensions axes hv]
  · rw [reduceSt_eq_of_valid input f keepDimensions axes hv]

/-- C10: when the caller passes an explicit, valid axes array, the engine
uses that very array and sorts it ascending in place: the caller's array
observable after the call is a sorted (ascending) permutation of what was
passed. -/
theorem reduce_sorts_axes_in_place (input : Tensor) (f : ℚ → ℚ → Nat → Nat → ℚ)
    (keepDimensions : Bool) (A : List Nat)
    (hv : validateReduceParams input.rank A = true) :
    ∃ l, (reduceSt input f keepDimensions (some A)).2.2 = some l ∧
      l.Perm A ∧ l.Sorted (· ≤ ·) := by
  refine ⟨A.insertionSort (· ≤ ·), ?_, List.perm_insertionSort _ A,
    List.sorted_insertionSort _ A⟩
  rw [reduceSt_eq_of_valid input f keepDimensions (some A) hv]
  rfl

theorem reduce_sorts_axes_in_place_witness :
    validateReduceParams (Tensor.mk [2, 3] [1, 2, 3, 4, 5, 6]).rank [1, 0] = true ∧
    ∃ l, (reduceSt ⟨[2, 3], [1, 2, 3, 4, 5, 6]⟩ sumReducer false (some [1, 0])).2.2 = some l ∧
      l.Perm [1, 0] ∧ l.Sorted (· ≤ ·) :=
  ⟨by decide, reduce_sorts_axes_in_place ⟨[2, 3], [1, 2, 3, 4, 5, 6]⟩ sumReducer false [1, 0]
    (by decide)⟩

/-- C5: when validation fails, the call produces only the error — no output
tensor exists, and no engine work is observable (the input and the caller's
axes array are untouched; in particular the in-place sort, which follows
validation, has not happened). -/
theorem reduce_validation_failure_no_output (input : Tensor) (f : ℚ → ℚ → Nat → Nat → ℚ)
    (keepDimensions : Bool) (axes : Option (List Nat))
    (hv : validateReduceParams input.rank (defaultAxes input axes) = false) :
    reduce input f keepDimensions axes = Except.error "ShapeError" ∧
    (reduceSt input f keepDimensions axes).2.1 = input ∧
    (reduceSt input f keepDimensions axes).2.2 = axes := by
  have h := reduceSt_eq_of_invalid input f keepDimensions axes hv
  exact ⟨by unfold reduce; rw [h], by rw [h], by rw [h]⟩

theorem reduce_validation_failure_no_output_witness :
    validateReduceParams (Tensor.mk [2, 3] [1, 2, 3, 4, 5, 6]).rank
        (defaultAxes ⟨[2, 3], [1, 2, 3, 4, 5, 6]⟩ (some [0, 0])) = false ∧
    (reduce ⟨[2, 3], [1, 2, 3, 4, 5, 6]⟩ sumReducer false (some [0, 0]) =
        Except.error "ShapeError" ∧
      (reduceSt ⟨[2, 3], [1, 2, 3, 4, 5, 6]⟩ sumReducer false (some [0, 0])).2.1 =
        ⟨[2, 3], [1, 2, 3, 4, 5, 6]⟩ ∧
      (reduceSt ⟨[2, 3], [1, 2, 3, 4, 5, 6]⟩ sumReducer false (some [0, 0])).2.2 =
        some [0, 0]) :=
  ⟨by decide, reduce_validation_failure_no_output ⟨[2, 3], [1, 2, 3, 4, 5, 6]⟩ sumReducer false
    (some [0, 0]) (by decide)⟩

/-- C6: with an explicit axis set, `reduce` fails with a ShapeError (and
produces no output) exactly when the axis set contains an index outside
`[0, rank)` or a duplicate axis. -/
theorem reduce_shape_error_iff (input : Tensor) (f : ℚ → ℚ → Nat → Nat → ℚ)
    (keepDimensions : Bool) (A : List Nat) :
    reduce input f keepDimensions (some A) = Except.error "ShapeError" ↔
      (∃ a ∈ A, ¬ a < input.rank) ∨ ¬ A.Nodup := by
  rcases hv : validateReduceParams input.rank A with _ | _
  · have h1 := reduceSt_eq_of_invalid input f keepDimensions (some A) hv
    constructor
    · intro _; exact (validateReduceParams_false_iff _ _).mp hv
    · intro _; unfold reduce; rw [h1]
  · have h1 := reduce_eq_of_valid input f keepDimensions (some A) hv
    constructor
    · intro he; rw [h1] at he; exact absurd he (by simp)
    · intro hcond
      have hf := (validateReduceParams_false_iff input.rank A).mpr hcond
      rw [hv] at hf
      exact absurd hf (by simp)

/-- C3: with `keepDimensions = true` the result's shape is the input shape
with every axis of the (valid) axis set forced to 1; with
`keepDimensions = false` the result is additionally squeezed, removing every
size-1 entry of that shape — including axes that were already 1 in the input
and were not reduced. -/
theorem reduce_output_shape (input : Tensor) (f : ℚ → ℚ → Nat → Nat → ℚ)
    (A : List Nat) (hv : validateReduceParams input.rank A = true) :
    (reduce input f true (some A)).map Tensor.shape =
      Except.ok (specKeepShape input.shape A) ∧
    (reduce input f false (some A)).map Tensor.shape =
      Except.ok ((specKeepShape input.shape A).filter (fun d => d ≠ 1)) := by
  have h1 := reduce_eq_of_valid input f true (some A) hv
  have h2 := reduce_eq_of_valid input f false (some A) hv
  constructor
  · rw [h1]
    unfold reducePure
    simp only [defaultAxes, Option.getD_some, outputShapeOf_eq_spec, if_pos rfl]
    rfl
  · rw [h2]
    unfold reducePure
    simp only [defaultAxes, Option.getD_some, outputShapeOf_eq_spec, squeeze,
      Bool.false_eq_true, if_neg]
    rfl

theorem reduce_output_shape_witness :
    validateReduceParams (Tensor.mk [1, 2] [5, 7]).rank [1] = true ∧
    ((reduce ⟨[1, 2], [5, 7]⟩ sumReducer true (some [1])).map Tensor.shape =
        Except.ok (specKeepShape [1, 2] [1]) ∧
      (reduce ⟨[1, 2], [5, 7]⟩ sumReducer false (some [1])).map Tensor.shape =
        Except.ok ((specKeepShape [1, 2] [1]).filter (fun d => d ≠ 1))) :=
  ⟨by decide, reduce_output_shape ⟨[1, 2], [5, 7]⟩ sumReducer [1] (by decide)⟩

/-- C7: an explicit empty axis set gives `reduceElements = 1` and makes the
reduction an identity pass-through for any combining function: the output
holds exactly the input's elements (the shape is squeezed when
`keepDimensions` is false); in particular a rank-0 input returns its scalar
unchanged. -/
theorem reduce_empty_axes_identity (input : Tensor) (f : ℚ → ℚ → Nat → Nat → ℚ)
    (keepDimensions : Bool) (hWF : input.WF) :
    sizeOfShape (reduceDimsOf input.shape ([] : List Nat)) = 1 ∧
    reduce input f keepDimensions (some []) =
      Except.ok ⟨if keepDimensions then input.shape
        else input.shape.filter (fun d => d ≠ 1), input.data⟩ := by
  refine ⟨rfl, ?_⟩
  have hv : validateReduceParams input.rank (defaultAxes input (some [])) = true := by
    simp [validateReduceParams, defaultAxes]
  rw [reduce_eq_of_valid input f keepDimensions (some []) hv]
  have hdata : reduceData input f (outputShapeOf input.shape (defaultAxes input (some [])))
      ((defaultAxes input (some [])).insertionSort (· ≤ ·)) = input.data := by
    show (List.range (sizeOfShape input.shape)).map
        (fun oi => jsReduce f [input.getValueByLocation (locationFromIndex input.shape oi)]) =
      input.data
    apply List.ext_getElem
    · simp [hWF.1]
    · intro j h1 h2
      have hj : j < sizeOfShape input.shape := by simpa using h1
      simp only [List.getElem_map, List.getElem_range]
      show input.getValueByLocation (locationFromIndex input.shape j) = input.data[j]
      rw [getValue_locationFromIndex input j hj]
      exact List.getD_eq_getElem input.data 0 h2
  cases keepDimensions with
  | true =>
    show Except.ok (⟨outputShapeOf input.shape (defaultAxes input (some [])),
      reduceData input f (outputShapeOf input.shape (defaultAxes input (some [])))
        ((defaultAxes input (some [])).insertionSort (· ≤ ·))⟩ : Tensor) = _
    rw [hdata]
    rfl
  | false =>
    show Except.ok (squeeze ⟨outputShapeOf input.shape (defaultAxes input (some [])),
      reduceData input f (outputShapeOf input.shape (defaultAxes input (some [])))
        ((defaultAxes input (some [])).insertionSort (· ≤ ·))⟩) = _
    rw [hdata]
    rfl

theorem reduce_empty_axes_identity_witness :
    (Tensor.mk [] [42]).WF ∧
    (sizeOfShape (reduceDimsOf (Tensor.mk [] [42]).shape ([] : List Nat)) = 1 ∧
      reduce ⟨[], [42]⟩ maxReducer false (some []) =
        Except.ok ⟨if false then (Tensor.mk [] [42]).shape
          else (Tensor.mk [] [42]).shape.filter (fun d => d ≠ 1), [42]⟩) :=
  ⟨⟨by decide, by decide⟩,
    reduce_empty_axes_identity ⟨[], [42]⟩ maxReducer false ⟨by decide, by decide⟩⟩

/-- C2: reducing a well-formed rank-R tensor with `reduceSum` over any axis
set that is a permutation of all axes `0 .. R-1` yields the rank-0 tensor
holding the arithmetic sum of every element — the same result for every
ordering of the axis set. -/
theorem reduceSum_all_axes_scalar (input : Tensor) (hWF : input.WF) (A : List Nat)
    (hA : A.Perm (List.range input.rank)) :
    reduceSum input false (some A) = Except.ok ⟨[], [input.data.sum]⟩ := by
  have hv : validateReduceParams input.rank (defaultAxes input (some A)) = true := by
    rw [validateReduceParams_iff]
    exact ⟨fun a ha => List.mem_range.mp (hA.subset ha),
      hA.nodup_iff.mpr (List.nodup_range _)⟩
  unfold reduceSum
  rw [reduce_eq_of_valid input sumReducer false (some A) hv]
  simp only [show defaultAxes input (some A) = A from rfl]
  have hsorted : A.insertionSort (· ≤ ·) = List.range input.shape.length :=
    insertionSort_range_perm input.shape.length A hA
  have hmem : ∀ i, i < input.shape.length → i ∈ A := fun i hi =>
    hA.mem_iff.mpr (List.mem_range.mpr hi)
  have hshape : outputShapeOf input.shape A = List.replicate input.shape.length 1 := by
    apply List.ext_getElem (by simp [length_outputShapeOf])
    intro j h1 h2
    have hj : j < input.shape.length := by simpa [length_outputShapeOf] using h1
    rw [← List.getD_eq_getElem _ 0 h1, getD_outputShapeOf input.shape A j hj,
      if_pos (hmem j hj)]
    simp
  have hdims : reduceDimsOf input.shape (List.range input.shape.length) = input.shape :=
    map_getD_range 0 input.shape
  have hgather : gatherValues input (List.replicate input.shape.length 1)
      (List.range input.shape.length) (computeStrides input.shape)
      (sizeOfShape input.shape) 0 = input.data := by
    unfold gatherValues
    rw [locationFromIndex_replicate_one]
    have hpt : ∀ r ∈ List.range (sizeOfShape input.shape),
        input.getValueByLocation (decomposeLoop (List.range input.shape.length)
          (computeStrides input.shape) (List.replicate input.shape.length 0) r) =
          input.data.getD r 0 := by
      intro r hr
      have hrlt : r < sizeOfShape input.shape := List.mem_range.mp hr
      rw [decomposeLoop_range input.shape r hrlt]
      exact getValue_locationFromIndex input r hrlt
    rw [List.map_congr_left hpt, ← hWF.1]
    exact map_getD_range 0 input.data
  have hdata : reduceData input sumReducer (outputShapeOf input.shape A)
      (A.insertionSort (· ≤ ·)) = [input.data.sum] := by
    unfold reduceData
    rw [hshape, hsorted, hdims]
    have hone : sizeOfShape (List.replicate input.shape.length 1) = 1 := by
      simp [sizeOfShape]
    have hr1 : List.range 1 = [0] := rfl
    rw [hone, hr1, List.map_cons, List.map_nil, hgather, jsReduce_sumReducer]
  have hfilter : (List.replicate input.shape.length 1).filter (fun d => d ≠ 1) = [] := by
    rw [List.filter_eq_nil_iff]
    intro a ha
    rw [List.eq_of_mem_replicate ha]
    simp
  congr 1
  show squeeze ⟨outputShapeOf input.shape A,
    reduceData input sumReducer (outputShapeOf input.shape A)
      (A.insertionSort (· ≤ ·))⟩ = _
  rw [hdata, hshape]
  unfold squeeze
  rw [hfilter]

theorem reduceSum_all_axes_scalar_witness :
    (Tensor.mk [2, 3] [1, 2, 3, 4, 5, 6]).WF ∧
    [1, 0].Perm (List.range (Tensor.mk [2, 3] [1, 2, 3, 4, 5, 6]).rank) ∧
    reduceSum ⟨[2, 3], [1, 2, 3, 4, 5, 6]⟩ false (some [1, 0]) =
      Except.ok ⟨[], [21]⟩ := by
  refine ⟨⟨by decide, by decide⟩, by decide, ?_⟩
  rw [reduceSum_all_axes_scalar ⟨[2, 3], [1, 2, 3, 4, 5, 6]⟩
    (show (Tensor.mk [2, 3] [1, 2, 3, 4, 5, 6]).WF from ⟨by decide, by decide⟩)
    [1, 0] (by decide)]
  have hsum : ([1, 2, 3, 4, 5, 6] : List ℚ).sum = 21 := by
    norm_num [List.sum_cons, List.sum_nil]
  show (Except.ok (⟨[], [([1, 2, 3, 4, 5, 6] : List ℚ).sum]⟩ : Tensor) :
    Except String Tensor) = _
  rw [hsum]

/-- C4: `reduceMean` equals `reduceSum` with every output element divided by
`reduceElements`, the product of the reduced axes' extents — the mean
combiner accumulates a running sum and divides only on the last folded
element, which is exactly this division. -/
theorem reduceMean_eq_reduceSum_div (input : Tensor) (keepDimensions : Bool)
    (A : List Nat) (hWF : input.WF)
    (hv : validateReduceParams input.rank A = true) :
    reduceMean input keepDimensions (some A) =
      (reduceSum input keepDimensions (some A)).map fun t =>
        ⟨t.shape, t.data.map fun x =>
          x / ((sizeOfShape (reduceDimsOf input.shape A) : ℚ))⟩ := by
  have hperm : (A.insertionSort (· ≤ ·)).Perm A := List.perm_insertionSort _ A
  have hRE : sizeOfShape (reduceDimsOf input.shape (A.insertionSort (· ≤ ·))) =
      sizeOfShape (reduceDimsOf input.shape A) := by
    unfold sizeOfShape reduceDimsOf
    exact (hperm.map _).prod_eq
  unfold reduceMean reduceSum
  rw [reduce_eq_of_valid input meanReducer keepDimensions (some A) hv,
    reduce_eq_of_valid input sumReducer keepDimensions (some A) hv]
  simp only [show defaultAxes input (some A) = A from rfl]
  have hpos : 0 < sizeOfShape (reduceDimsOf input.shape (A.insertionSort (· ≤ ·))) := by
    unfold sizeOfShape
    apply List.prod_pos
    intro d hd
    obtain ⟨a, ha, hEq⟩ := List.mem_map.mp hd
    have haA : a ∈ A := hperm.subset ha
    have haLt : a < input.rank := ((validateReduceParams_iff _ _).mp hv).1 a haA
    rw [← hEq, List.getD_eq_getElem _ 0 haLt]
    exact hWF.2 _ (List.getElem_mem haLt)
  have hdata : reduceData input meanReducer (outputShapeOf input.shape A)
      (A.insertionSort (· ≤ ·)) =
      (reduceData input sumReducer (outputShapeOf input.shape A)
        (A.insertionSort (· ≤ ·))).map
        (fun x => x / ((sizeOfShape (reduceDimsOf input.shape A) : ℚ))) := by
    unfold reduceData
    rw [List.map_map]
    apply List.map_congr_left
    intro oi _
    have hlen : (gatherValues input (outputShapeOf input.shape A)
        (A.insertionSort (· ≤ ·))
        (computeStrides (reduceDimsOf input.shape (A.insertionSort (· ≤ ·))))
        (sizeOfShape (reduceDimsOf input.shape (A.insertionSort (· ≤ ·)))) oi).length =
        sizeOfShape (reduceDimsOf input.shape (A.insertionSort (· ≤ ·))) := by
      simp [gatherValues]
    have hne : gatherValues input (outputShapeOf input.shape A)
        (A.insertionSort (· ≤ ·))
        (computeStrides (reduceDimsOf input.shape (A.insertionSort (· ≤ ·))))
        (sizeOfShape (reduceDimsOf input.shape (A.insertionSort (· ≤ ·)))) oi ≠ [] := by
      apply List.ne_nil_of_length_pos
      rw [hlen]
      exact hpos
    simp only [Function.comp_apply]
    rw [jsReduce_meanReducer _ hne, hlen, hRE]
  cases keepDimensions with
  | true =>
    show Except.ok (⟨outputShapeOf input.shape A,
      reduceData input meanReducer (outputShapeOf input.shape A)
        (A.insertionSort (· ≤ ·))⟩ : Tensor) = _
    rw [hdata]
    rfl
  | false =>
    show Except.ok (squeeze ⟨outputShapeOf input.shape A,
      reduceData input meanReducer (outputShapeOf input.shape A)
        (A.insertionSort (· ≤ ·))⟩) = _
    rw [hdata]
    rfl

theorem reduceMean_eq_reduceSum_div_witness :
    (Tensor.mk [2, 3] [1, 2, 3, 4, 5, 6]).WF ∧
    validateReduceParams (Tensor.mk [2, 3] [1, 2, 3, 4, 5, 6]).rank [1] = true ∧
    reduceMean ⟨[2, 3], [1, 2, 3, 4, 5, 6]⟩ false (some [1]) =
      (reduceSum ⟨[2, 3], [1, 2, 3, 4, 5, 6]⟩ false (some [1])).map (fun t =>
        ⟨t.shape, t.data.map fun x =>
          x / ((sizeOfShape (reduceDimsOf (Tensor.mk [2, 3] [1, 2, 3, 4, 5, 6]).shape [1]) : ℚ))⟩) :=
  ⟨⟨by decide, by decide⟩, by decide,
    reduceMean_eq_reduceSum_div ⟨[2, 3], [1, 2, 3, 4, 5, 6]⟩ false [1] ⟨by decide, by decide⟩
      (by decide)⟩

/-- C8: `reduceL2` is the elementwise square root of `reduceSumSquare` —
the rank-0 branch takes a direct scalar root into a fresh rank-0 tensor, the
other branch raises elementwise to the 0.5 power, and both amount to mapping
the square root over the intermediate result; concretely, the L2 reduction of
`[3, 4]` (shape `[2]`) over all axes is `5`. -/
theorem reduceL2_sqrt_sumSquare :
    (∀ (input : Tensor) (keepDimensions : Bool) (axes : Option (List Nat)),
      validateReduceParams input.rank (defaultAxes input axes) = true →
      reduceL2 input keepDimensions axes =
        (reduceSumSquare input keepDimensions axes).map fun t =>
          ⟨t.shape, t.data.map ratSqrt⟩) ∧
    reduceL2 ⟨[2], [3, 4]⟩ false none = Except.ok ⟨[], [5]⟩ := by
  have hpowhalf : (fun x => jsPow x (1 / 2)) = ratSqrt := funext fun x => by
    unfold jsPow
    rw [if_neg (by norm_num), if_pos rfl]
  constructor
  · intro input keepDimensions axes hv
    have hv2 : validateReduceParams (pow input 2).rank
        (defaultAxes (pow input 2) axes) = true := hv
    unfold reduceL2 reduceSumSquare reduceSum
    rw [reduce_eq_of_valid (pow input 2) sumReducer keepDimensions axes hv2]
    set P := reducePure (pow input 2) sumReducer keepDimensions
      (defaultAxes (pow input 2) axes) with hP
    have hlen : P.data.length = sizeOfShape P.shape := reducePure_data_length _ _ _ _
    show Except.ok (if P.rank = 0 then (⟨[], [jsPow (P.data.getD 0 0) (1 / 2)]⟩ : Tensor)
      else pow P (1 / 2)) = Except.ok ⟨P.shape, P.data.map ratSqrt⟩
    by_cases h0 : P.rank = 0
    · rw [if_pos h0]
      have hsh : P.shape = [] := List.eq_nil_of_length_eq_zero h0
      have hone : P.data.length = 1 := by rw [hlen, hsh]; rfl
      obtain ⟨v, hval⟩ := List.length_eq_one.mp hone
      rw [hsh, hval]
      show Except.ok (⟨[], [jsPow v (1 / 2)]⟩ : Tensor) = Except.ok ⟨[], [ratSqrt v]⟩
      rw [show jsPow v (1 / 2) = ratSqrt v from congrFun hpowhalf v]
    · rw [if_neg h0]
      show Except.ok (⟨P.shape, P.data.map fun x => jsPow x (1 / 2)⟩ : Tensor) = _
      rw [hpowhalf]
  · have hpow2 : pow ⟨[2], [3, 4]⟩ 2 = (⟨[2], [9, 16]⟩ : Tensor) := by
      unfold pow jsPow
      norm_num
    unfold reduceL2 reduceSumSquare reduceSum
    rw [hpow2, reduce_eq_of_valid ⟨[2], [9, 16]⟩ sumReducer false none (by decide)]
    have hg : reduceData ⟨[2], [9, 16]⟩ sumReducer
        (outputShapeOf (Tensor.mk [2] [9, 16]).shape (defaultAxes ⟨[2], [9, 16]⟩ none))
        ((defaultAxes ⟨[2], [9, 16]⟩ none).insertionSort (· ≤ ·)) =
        [jsReduce sumReducer [9, 16]] := rfl
    have h25 : jsReduce sumReducer [9, 16] = (25 : ℚ) := by
      show (9 : ℚ) + 16 = 25
      norm_num
    have hpure : reducePure ⟨[2], [9, 16]⟩ sumReducer false
        (defaultAxes ⟨[2], [9, 16]⟩ none) = (⟨[], [25]⟩ : Tensor) := by
      show squeeze ⟨outputShapeOf (Tensor.mk [2] [9, 16]).shape
        (defaultAxes ⟨[2], [9, 16]⟩ none),
        reduceData ⟨[2], [9, 16]⟩ sumReducer
          (outputShapeOf (Tensor.mk [2] [9, 16]).shape (defaultAxes ⟨[2], [9, 16]⟩ none))
          ((defaultAxes ⟨[2], [9, 16]⟩ none).insertionSort (· ≤ ·))⟩ = _
      rw [hg, h25]
      rfl
    rw [hpure]
    show Except.ok (⟨[], [jsPow (25 : ℚ) (1 / 2)]⟩ : Tensor) =
      Except.ok (⟨[], [5]⟩ : Tensor)
    have hroot : jsPow (25 : ℚ) (1 / 2) = 5 := by
      unfold jsPow
      rw [if_neg (by norm_num), if_pos rfl]
      show ((natSqrt (25 : ℚ).num.toNat : ℚ) / (natSqrt (25 : ℚ).den : ℚ)) = 5
      rw [show (25 : ℚ).num.toNat = 25 from rfl, show (25 : ℚ).den = 1 from rfl,
        show natSqrt 25 = 5 from rfl, show natSqrt 1 = 1 from rfl]
      norm_num
    rw [hroot]

theorem reduceL2_sqrt_sumSquare_witness :
    validateReduceParams (Tensor.mk [2, 2] [1, 2, 3, 4]).rank
      (defaultAxes ⟨[2, 2], [1, 2, 3, 4]⟩ (some [0])) = true ∧
    reduceL2 ⟨[2, 2], [1, 2, 3, 4]⟩ true (some [0]) =
      (reduceSumSquare ⟨[2, 2], [1, 2, 3, 4]⟩ true (some [0])).map (fun t =>
        ⟨t.shape, t.data.map ratSqrt⟩) :=
  ⟨by decide, reduceL2_sqrt_sumSquare.1 ⟨[2, 2], [1, 2, 3, 4]⟩ true (some [0]) (by decide)⟩

lemma length_computeStrides : ∀ (dims : List Nat), (computeStrides dims).length = dims.length := by
  intro dims
  induction dims with
  | nil => rfl
  | cons d ds ih => simpa [computeStrides] using ih

lemma getD_computeStrides (d0 : Nat) :
    ∀ (dims : List Nat) (i : Nat), i < dims.length →
      (computeStrides dims).getD i d0 = sizeOfShape (dims.drop (i + 1)) := by
  intro dims
  induction dims with
  | nil => intro i hi; simp at hi
  | cons d ds ih =>
    intro i hi
    cases i with
    | zero => rfl
    | succ j => exact ih j (by simpa using hi)

lemma computeStrides_last (dims : List Nat) :
    (computeStrides dims).getD ((computeStrides dims).length - 1) 1 = 1 := by
  cases dims with
  | nil => rfl
  | cons d ds =>
    have hlen : (computeStrides (d :: ds)).length - 1 = ds.length := by
      rw [length_computeStrides]
      simp
    rw [hlen, getD_computeStrides 1 (d :: ds) ds.length (by simp)]
    rw [show (d :: ds).drop (ds.length + 1) = [] from List.drop_eq_nil_of_le (by simp)]
    rfl

lemma computeStrides_rec (dims : List Nat) (i : Nat) (hi : i + 1 < dims.length) :
    (computeStrides dims).getD i 1 =
      (computeStrides dims).getD (i + 1) 1 * dims.getD (i + 1) 1 := by
  rw [getD_computeStrides 1 dims i (by omega), getD_computeStrides 1 dims (i + 1) hi]
  rw [List.drop_eq_getElem_cons hi]
  rw [show dims.getD (i + 1) 1 = dims[i + 1] from List.getD_eq_getElem dims 1 hi]
  unfold sizeOfShape
  rw [List.prod_cons, Nat.mul_comm]

/-- C1: for a valid axis set, the engine's derived stride table satisfies the
spec's recurrence (`reduceStrides[last] = 1`,
`reduceStrides[i] = reduceStrides[i+1] * reduceDims[i+1]` over the sorted
reduced extents); every reduce-index `r < reduceElements` decomposes through
that table into per-axis coordinates that are in range and reconstruct `r`;
and every stored output value is the left-to-right fold of the combining
function over exactly the values read at those decomposed locations
(overwriting the output's own location), taken in ascending reduce-index
order. -/
theorem reduce_mixed_radix_gather_fold (input : Tensor) (f : ℚ → ℚ → Nat → Nat → ℚ)
    (A sortedAxes reduceDims reduceStrides : List Nat) (reduceElements : Nat)
    (hv : validateReduceParams input.rank A = true)
    (hsa : sortedAxes = A.insertionSort (· ≤ ·))
    (hdims : reduceDims = reduceDimsOf input.shape sortedAxes)
    (hstr : reduceStrides = computeStrides reduceDims)
    (hre : reduceElements = sizeOfShape reduceDims) :
    (reduceStrides.getD (reduceStrides.length - 1) 1 = 1 ∧
      ∀ i, i + 1 < reduceDims.length →
        reduceStrides.getD i 1 =
          reduceStrides.getD (i + 1) 1 * reduceDims.getD (i + 1) 1) ∧
    (∀ r, r < reduceElements →
      ((specCoords reduceDims reduceStrides r).zip reduceStrides).foldr
        (fun p acc => p.1 * p.2 + acc) 0 = r ∧
      ∀ p ∈ (specCoords reduceDims reduceStrides r).zip reduceDims, p.1 < p.2) ∧
    reduce input f true (some A) =
      Except.ok ⟨outputShapeOf input.shape A,
        (List.range (sizeOfShape (outputShapeOf input.shape A))).map fun oi =>
          jsReduce f ((List.range reduceElements).map fun r =>
            input.getValueByLocation (specDecompose sortedAxes reduceDims reduceStrides
              (locationFromIndex (outputShapeOf input.shape A) oi) r))⟩ := by
  subst hsa
  subst hdims
  subst hstr
  subst hre
  refine ⟨⟨computeStrides_last _, fun i hi => computeStrides_rec _ i hi⟩,
    fun r hr => specCoords_reconstruct _ r hr, ?_⟩
  rw [reduce_eq_of_valid input f true (some A) hv]
  simp only [show defaultAxes input (some A) = A from rfl]
  congr 1
  show (⟨outputShapeOf input.shape A,
    reduceData input f (outputShapeOf input.shape A) (A.insertionSort (· ≤ ·))⟩ : Tensor) = _
  congr 1
  unfold reduceData gatherValues
  apply List.map_congr_left
  intro oi _
  congr 1
  apply List.map_congr_left
  intro r hr
  congr 1
  exact decomposeLoop_eq_spec (reduceDimsOf input.shape (A.insertionSort (· ≤ ·)))
    (A.insertionSort (· ≤ ·)) _ r (by simp [reduceDimsOf]) (List.mem_range.mp hr)

/-- Concrete instance data for the mixed-radix witness. -/
def w1Input : Tensor := ⟨[2, 2], [10, 20, 30, 40]⟩

/-- Sorted axis set of the mixed-radix witness. -/
def w1Sorted : List Nat := [1, 0].insertionSort (· ≤ ·)

/-- Reduced extents of the mixed-radix witness. -/
def w1Dims : List Nat := reduceDimsOf w1Input.shape w1Sorted

/-- Stride table of the mixed-radix witness. -/
def w1Strides : List Nat := computeStrides w1Dims

/-- Reduce-element count of the mixed-radix witness. -/
def w1RE : Nat := sizeOfShape w1Dims

theorem reduce_mixed_radix_gather_fold_witness :
    validateReduceParams w1Input.rank [1, 0] = true ∧
    ((w1Strides.getD (w1Strides.length - 1) 1 = 1 ∧
      ∀ i, i + 1 < w1Dims.length →
        w1Strides.getD i 1 = w1Strides.getD (i + 1) 1 * w1Dims.getD (i + 1) 1) ∧
    (∀ r, r < w1RE →
      ((specCoords w1Dims w1Strides r).zip w1Strides).foldr
        (fun p acc => p.1 * p.2 + acc) 0 = r ∧
      ∀ p ∈ (specCoords w1Dims w1Strides r).zip w1Dims, p.1 < p.2) ∧
    reduce w1Input maxReducer true (some [1, 0]) =
      Except.ok ⟨outputShapeOf w1Input.shape [1, 0],
        (List.range (sizeOfShape (outputShapeOf w1Input.shape [1, 0]))).map fun oi =>
          jsReduce maxReducer ((List.range w1RE).map fun r =>
            w1Input.getValueByLocation (specDecompose w1Sorted w1Dims w1Strides
              (locationFromIndex (outputShapeOf w1Input.shape [1, 0]) oi) r))⟩) :=
  ⟨by decide, reduce_mixed_radix_gather_fold w1Input maxReducer [1, 0]
    w1Sorted w1Dims w1Strides w1RE (by decide) rfl rfl rfl rfl⟩

end Webnn
